import Mathlib

/-!
Shallow embedding of `src/equation_solver.py` (Windsooon/Trade100), a
single-variable linear-equation solver.  The Python program parses each
side of an equation such as `"x+5-3+x=6+x-2"` into a pair
(coefficient of `x`, constant term), rearranges to `xCoeff * x = constDiff`,
and classifies the outcome as a unique solution (via Python's floor
division `//`), "No solution", or "Infinite solutions".

Python's runtime errors are made explicit: `equation.split('=')` unpacked
into two variables raises `ValueError` when the number of `=` is not
exactly one (`Err.malformedEquation`); `expr[0]` on an empty string raises
`IndexError` (`Err.emptySide`); `int(s)` on a non-numeric string raises
`ValueError` (`Err.badInt`).
-/

/-- The exceptions `solve_equation` can raise, made explicit. -/
inductive Err where
  | malformedEquation : Err
  | emptySide : Err
  | badInt : String → Err
deriving DecidableEq, Repr

/-- The ASCII whitespace characters Python `int` strips from both ends
of its argument. -/
def pyWS (c : Char) : Bool :=
  c == ' ' || c == '\t' || c == '\n' || c == '\r' || c == '\x0B' || c == '\x0C'

/-- The digit grammar Python `int` accepts after a digit: more digits,
with a single underscore allowed only between two digits. -/
def pyCore : List Char → Bool
  | [] => true
  | c :: rest =>
    if c.isDigit then pyCore rest
    else if c = '_' then
      match rest with
      | [] => false
      | d :: rest2 => d.isDigit && pyCore rest2
    else false

/-- A non-empty digit run with single underscores between digits. -/
def pyIntValid : List Char → Bool
  | [] => false
  | c :: rest => c.isDigit && pyCore rest

/-- Strip leading and trailing whitespace, as Python `int` does. -/
def pyStrip (cs : List Char) : List Char :=
  ((cs.dropWhile pyWS).reverse.dropWhile pyWS).reverse

/-- Python `int(s)` on the sign-free strings the scanner can pass it (a
term body never contains `+`/`-`, so no sign reaches `int`): leading and
trailing ASCII whitespace is stripped, the remainder must be a non-empty
digit run with single underscores allowed between digits, and the value
is the base-10 number with the underscores removed.  Unicode digits and
non-ASCII space characters lie outside the program's documented alphabet
and are not modelled. -/
def pyInt (cs : List Char) : Option Int :=
  if pyIntValid (pyStrip cs) then
    some (Int.ofNat (((pyStrip cs).filter (fun c => c ≠ '_')).foldl
      (fun acc c => 10 * acc + (c.toNat - '0'.toNat)) 0))
  else none

/-- Lines 82–96 of the source: process one term body under a sign,
updating the accumulators `x_coeff` and `constant`.  A body containing
`'x'` contributes `sign * coeff` to the coefficient, where `coeff` is
read from the body with every `'x'` removed (`term.replace('x','')`);
an empty remainder (or a lone sign, unreachable here) means `1`.  A body
without `'x'` is a constant; an empty body contributes nothing. -/
def processTerm (sign : Int) (term : List Char) (xc k : Int) :
    Except Err (Int × Int) :=
  if 'x' ∈ term then
    let coeffStr := term.filter (fun c => c ≠ 'x')
    if coeffStr = [] ∨ coeffStr = ['+'] then .ok (xc + sign * 1, k)
    else if coeffStr = ['-'] then .ok (xc + sign * (-1), k)
    else
      match pyInt coeffStr with
      | none => .error (.badInt ⟨coeffStr⟩)
      | some coeff => .ok (xc + sign * coeff, k)
  else
    if term = [] then .ok (xc, k)
    else
      match pyInt term with
      | none => .error (.badInt ⟨term⟩)
      | some v => .ok (xc, k + sign * v)

/-- Lines 70–96 of the source: the left-to-right scan.  `sign` is the
sign read for the current term, `term` the characters accumulated for it
so far (Python's `term += expr[i]`).  Hitting `'+'` or `'-'` finishes
the current term and starts a new one; the end of the input finishes the
last term. -/
def scan : List Char → Int → List Char → Int → Int → Except Err (Int × Int)
  | [], sign, term, xc, k => processTerm sign term xc k
  | c :: rest, sign, term, xc, k =>
    if c = '+' ∨ c = '-' then
      match processTerm sign term xc k with
      | .error e => .error e
      | .ok (xc', k') => scan rest (if c = '+' then 1 else -1) [] xc' k'
    else
      scan rest sign (term ++ [c]) xc k

/-- Lines 52–98 of the source, `parse_expression`: remove the space
character (`expr.replace(' ', '')`), prepend `'+'` when the first
character is not a sign (`expr[0]` raises `IndexError` on an empty
string), then scan.  After the normalisation the first character is
always a sign, so the scan starts by reading it. -/
def parse_expression (expr : String) : Except Err (Int × Int) :=
  match expr.data.filter (fun c => c ≠ ' ') with
  | [] => .error .emptySide
  | c :: cs =>
    if c = '+' ∨ c = '-' then
      scan cs (if c = '+' then 1 else -1) [] 0 0
    else
      scan (c :: cs) 1 [] 0 0

/-- Python `str.split('=')` on character lists: every occurrence of `'='`
separates fields, empty fields included; the empty string yields `[[]]`. -/
def splitEq : List Char → List (List Char)
  | [] => [[]]
  | c :: rest =>
    if c = '=' then [] :: splitEq rest
    else
      match splitEq rest with
      | [] => [[c]]
      | t :: ts => (c :: t) :: ts

/-- The three outcomes of `solve_equation`, as an inductive result
instead of the strings the source prints. -/
inductive SolveResult where
  | UniqueSolution : Int → SolveResult
  | NoSolution : SolveResult
  | InfiniteSolutions : SolveResult
deriving DecidableEq, Repr

/-- The strings the source returns for each outcome (lines 45–50). -/
def render : SolveResult → String
  | .UniqueSolution x => "x=" ++ toString x
  | .NoSolution => "No solution"
  | .InfiniteSolutions => "Infinite solutions"

/-- Lines 21–50 of the source with the outcome kept abstract: split on
`'='` into exactly two sides, parse both, rearrange to
`x_coeff = left_x_coeff - right_x_coeff`,
`const_diff = right_const - left_const`, and classify.  Python's `//` is
floor division, `Int.fdiv`. -/
def solveR (equation : String) : Except Err SolveResult :=
  match splitEq equation.data with
  | [l, r] =>
    match parse_expression ⟨l⟩ with
    | .error e => .error e
    | .ok (lxc, lk) =>
      match parse_expression ⟨r⟩ with
      | .error e => .error e
      | .ok (rxc, rk) =>
        let xCoeff := lxc - rxc
        let constDiff := rk - lk
        if xCoeff = 0 then
          if constDiff = 0 then .ok .InfiniteSolutions
          else .ok .NoSolution
        else .ok (.UniqueSolution (Int.fdiv constDiff xCoeff))
  | _ => .error .malformedEquation

/-- Lines 21–50 of the source, `solve_equation`, with the string outputs
of the source: `f"x={x_value}"`, `"No solution"`, `"Infinite solutions"`. -/
def solve_equation (equation : String) : Except Err String :=
  match splitEq equation.data with
  | [l, r] =>
    match parse_expression ⟨l⟩ with
    | .error e => .error e
    | .ok (lxc, lk) =>
      match parse_expression ⟨r⟩ with
      | .error e => .error e
      | .ok (rxc, rk) =>
        let xCoeff := lxc - rxc
        let constDiff := rk - lk
        if xCoeff = 0 then
          if constDiff = 0 then .ok "Infinite solutions"
          else .ok "No solution"
        else .ok ("x=" ++ toString (Int.fdiv constDiff xCoeff))
  | _ => .error .malformedEquation

/-- A signed term of one side, as the spec's data model describes it:
a sign and the term body (the characters between two operators). -/
structure Term where
  sign : Bool
  body : List Char
deriving DecidableEq, Repr

/-- The sign value the scanner assigns to a term (line 73). -/
def signVal (t : Term) : Int := if t.sign then 1 else -1

/-- The operator character written before a term. -/
def signChar (t : Term) : Char := if t.sign then '+' else '-'

/-- Render a list of signed terms as a side string, every term with an
explicit leading operator. -/
def renderTerms (ts : List Term) : List Char :=
  ts.foldr (fun t acc => signChar t :: (t.body ++ acc)) []

/-- Whether a parse step succeeded. -/
def isOkB : Except Err (Int × Int) → Bool
  | .ok _ => true
  | .error _ => false

/-- The (coefficient, constant) contribution of one term, read off the
term-processing step run from zero accumulators. -/
def contrib (t : Term) : Int × Int :=
  match processTerm (signVal t) t.body 0 0 with
  | .ok p => p
  | .error _ => (0, 0)

/-- A term whose rendering round-trips through the scanner: non-empty
body, no operator or space characters inside the body, and the body is
accepted by the term-processing step. -/
def validTerm (t : Term) : Prop :=
  t.body ≠ [] ∧ (∀ c ∈ t.body, c ≠ '+' ∧ c ≠ '-' ∧ c ≠ ' ') ∧
  isOkB (processTerm (signVal t) t.body 0 0) = true

instance (t : Term) : Decidable (validTerm t) := by
  unfold validTerm
  infer_instance

/-- The spec's input constraints on one side: non-empty after whitespace
removal, and only digits, the variable letter, operators and spaces. -/
def sideOK (cs : List Char) : Prop :=
  cs.filter (fun c => c ≠ ' ') ≠ [] ∧
  ∀ c ∈ cs, c.isDigit ∨ c = 'x' ∨ c = '+' ∨ c = '-' ∨ c = ' '

instance (cs : List Char) : Decidable (sideOK cs) := by
  unfold sideOK
  infer_instance

/-- `solve_equation` is `solveR` followed by the string rendering. -/
theorem solve_equation_eq_render (equation : String) :
    solve_equation equation = (solveR equation).map render := by
  unfold solve_equation solveR
  rcases splitEq equation.data with _ | ⟨l, _ | ⟨r, _ | t⟩⟩ <;>
    simp [Except.map]
  rcases parse_expression ⟨l⟩ with e | ⟨lxc, lk⟩ <;> simp [Except.map]
  rcases parse_expression ⟨r⟩ with e | ⟨rxc, rk⟩ <;> simp [Except.map]
  by_cases h1 : lxc - rxc = 0 <;> by_cases h2 : rk - lk = 0 <;>
    simp [h1, h2, Except.map, render]

/-- A digit is not one of the whitespace characters `int` strips. -/
theorem pyWS_digit (c : Char) (h : c.isDigit = true) : pyWS c = false := by
  cases hw : pyWS c
  · rfl
  · exfalso
    unfold pyWS at hw
    simp only [Bool.or_eq_true, beq_iff_eq] at hw
    have hcs : c = ' ' ∨ c = '\t' ∨ c = '\n' ∨ c = '\r' ∨ c = '\x0B' ∨
        c = '\x0C' := by tauto
    rcases hcs with rfl | rfl | rfl | rfl | rfl | rfl <;>
      exact absurd h (by decide)

/-- Whitespace stripping leaves an all-digit list unchanged. -/
theorem dropWhile_pyWS_digits (cs : List Char)
    (h : ∀ c ∈ cs, c.isDigit = true) : cs.dropWhile pyWS = cs := by
  cases cs with
  | nil => rfl
  | cons c rest =>
    rw [List.dropWhile_cons, pyWS_digit c (h c (by simp))]
    simp

/-- `pyStrip` leaves an all-digit list unchanged. -/
theorem pyStrip_digits (cs : List Char) (h : ∀ c ∈ cs, c.isDigit = true) :
    pyStrip cs = cs := by
  unfold pyStrip
  rw [dropWhile_pyWS_digits cs h,
    dropWhile_pyWS_digits cs.reverse (fun c hc => h c (List.mem_reverse.mp hc)),
    List.reverse_reverse]

/-- An all-digit list satisfies the continuation grammar. -/
theorem pyCore_digits (cs : List Char) (h : ∀ c ∈ cs, c.isDigit = true) :
    pyCore cs = true := by
  induction cs with
  | nil => rfl
  | cons c rest ih =>
    unfold pyCore
    rw [if_pos (h c (by simp))]
    exact ih (fun d hd => h d (by simp [hd]))

/-- On a non-empty all-digit list, `pyInt` succeeds with the base-10
value of the digits. -/
theorem pyInt_digits (cs : List Char) (hne : cs ≠ [])
    (hdig : cs.all Char.isDigit = true) :
    pyInt cs = some (Int.ofNat (cs.foldl
      (fun acc c => 10 * acc + (c.toNat - '0'.toNat)) 0)) := by
  have hmem : ∀ c ∈ cs, c.isDigit = true := fun c hc =>
    List.all_eq_true.mp hdig c hc
  have hstrip := pyStrip_digits cs hmem
  have hval : pyIntValid cs = true := by
    cases cs with
    | nil => exact absurd rfl hne
    | cons c rest =>
      show (c.isDigit && pyCore rest) = true
      rw [hmem c (by simp),
        pyCore_digits rest (fun d hd => hmem d (by simp [hd]))]
      rfl
  have hfil : cs.filter (fun c => c ≠ '_') = cs :=
    List.filter_eq_self.mpr (fun c hc => by
      have hd := hmem c hc
      simp only [decide_eq_true_eq]
      intro he
      subst he
      exact absurd hd (by decide))
  unfold pyInt
  rw [hstrip, if_pos hval, hfil]

/-- Splitting never yields an empty list of fields. -/
theorem splitEq_ne_nil : ∀ cs : List Char, splitEq cs ≠ []
  | [] => by simp [splitEq]
  | c :: rest => by
    simp only [splitEq]
    split
    · simp
    · cases h : splitEq rest <;> simp

/-- The number of fields is one more than the number of `'='`. -/
theorem length_splitEq : ∀ cs : List Char, (splitEq cs).length = cs.count '=' + 1
  | [] => by simp [splitEq]
  | c :: rest => by
    have ih := length_splitEq rest
    by_cases hc : c = '='
    · subst hc
      simp [splitEq, List.count_cons, ih]
    · cases h : splitEq rest with
      | nil => exact absurd h (splitEq_ne_nil rest)
      | cons t ts =>
        rw [h] at ih
        simp only [splitEq, if_neg hc, h, List.length_cons, List.count_cons]
        simp only [List.length_cons] at ih
        have hb : (c == '=') = false := by
          simp [beq_iff_eq]
          exact hc
        simp only [hb, Bool.false_eq_true, if_false]
        omega

/-- Shape of the solver on a two-field split with both sides parsed. -/
theorem solveR_eq (eq : String) (l r : List Char) (lxc lk rxc rk : Int)
    (hsp : splitEq eq.data = [l, r])
    (hl : parse_expression ⟨l⟩ = .ok (lxc, lk))
    (hr : parse_expression ⟨r⟩ = .ok (rxc, rk)) :
    solveR eq =
      (if lxc - rxc = 0 then
        (if rk - lk = 0 then .ok .InfiniteSolutions else .ok .NoSolution)
      else .ok (.UniqueSolution ((rk - lk).fdiv (lxc - rxc)))) := by
  unfold solveR
  rw [hsp]
  simp only [hl, hr]

/-- C3: an input with zero or two-or-more `=` characters is rejected
with the malformed-equation failure (the two-variable unpacking of
`equation.split('=')` raises), and no solution outcome is returned. -/
theorem C3_malformed_equation (s : String)
    (h : s.data.count '=' = 0 ∨ 2 ≤ s.data.count '=') :
    solve_equation s = .error .malformedEquation := by
  have hlen := length_splitEq s.data
  unfold solve_equation
  rcases hsp : splitEq s.data with _ | ⟨a, _ | ⟨b, _ | ⟨c, t⟩⟩⟩
  · exact absurd hsp (splitEq_ne_nil s.data)
  · rfl
  · rw [hsp] at hlen
    simp at hlen
    omega
  · rfl

/-- C3 witness: `"xx"` has zero `=` and `"x=3=5"` has two. -/
theorem C3_witness :
    solve_equation "xx" = .error .malformedEquation ∧
    solve_equation "x=3=5" = .error .malformedEquation :=
  ⟨C3_malformed_equation "xx" (Or.inl (by decide)),
   C3_malformed_equation "x=3=5" (Or.inr (by decide))⟩

/-- C10: when a side is empty after space removal, the parser's
`expr[0]` raises (modelled as an error), so `solve_equation` surfaces an
exception instead of any of the three outcomes. -/
theorem C10_empty_side (s : String) (l r : List Char)
    (hsp : splitEq s.data = [l, r])
    (h : l.filter (fun c => c ≠ ' ') = [] ∨ r.filter (fun c => c ≠ ' ') = []) :
    ∃ e, solve_equation s = .error e := by
  rcases h with h | h
  · have hl : parse_expression ⟨l⟩ = .error .emptySide := by
      unfold parse_expression
      rw [show (String.mk l).data = l from rfl, h]
    exact ⟨.emptySide, by unfold solve_equation; rw [hsp]; simp only [hl]⟩
  · rcases hpl : parse_expression ⟨l⟩ with e | ⟨lxc, lk⟩
    · exact ⟨e, by unfold solve_equation; rw [hsp]; simp only [hpl]⟩
    · have hr : parse_expression ⟨r⟩ = .error .emptySide := by
        unfold parse_expression
        rw [show (String.mk r).data = r from rfl, h]
      exact ⟨.emptySide, by unfold solve_equation; rw [hsp]; simp only [hpl, hr]⟩

/-- C10 witness: `"=5"` has an empty left side. -/
theorem C10_witness : ∃ e, solve_equation "=5" = .error e :=
  C10_empty_side "=5" [] ['5'] rfl (Or.inl rfl)

/-- C5: the eight reference scenarios, with the literal output strings
of the source. -/
theorem C5_scenarios :
    solve_equation "x+5-3+x=6+x-2" = .ok "x=2" ∧
    solve_equation "x=x" = .ok "Infinite solutions" ∧
    solve_equation "2x=x" = .ok "x=0" ∧
    solve_equation "2x+3=x+1" = .ok "x=-2" ∧
    solve_equation "x+1=x+2" = .ok "No solution" ∧
    solve_equation "3x-2=3x-2" = .ok "Infinite solutions" ∧
    solve_equation "x=5" = .ok "x=5" ∧
    solve_equation "2x=8" = .ok "x=4" :=
  ⟨rfl, rfl, rfl, rfl, rfl, rfl, rfl, rfl⟩

/-- C1: on a well-formed equation the solver classifies by
`xCoeff = leftCoeff - rightCoeff` and `constDiff = rightConst - leftConst`:
zero coefficient and zero difference give infinitely many solutions, zero
coefficient and non-zero difference give no solution, and otherwise the
unique solution is the floor division `constDiff / xCoeff` (`Int.fdiv`,
truncation toward negative infinity, Python `//`). -/
theorem C1_classification (eq : String) (l r : List Char) (lxc lk rxc rk : Int)
    (hsp : splitEq eq.data = [l, r])
    (hl : parse_expression ⟨l⟩ = .ok (lxc, lk))
    (hr : parse_expression ⟨r⟩ = .ok (rxc, rk)) :
    (lxc - rxc = 0 → rk - lk = 0 → solveR eq = .ok .InfiniteSolutions) ∧
    (lxc - rxc = 0 → rk - lk ≠ 0 → solveR eq = .ok .NoSolution) ∧
    (lxc - rxc ≠ 0 →
      solveR eq = .ok (.UniqueSolution (Int.fdiv (rk - lk) (lxc - rxc)))) := by
  have he := solveR_eq eq l r lxc lk rxc rk hsp hl hr
  refine ⟨fun h1 h2 => ?_, fun h1 h2 => ?_, fun h1 => ?_⟩
  · rw [he]
    simp [h1, h2]
  · rw [he]
    simp [h1, h2]
  · rw [he]
    simp [h1]

/-- C1 witness at `"2x+3=x+1"`: coefficient `2-1`, difference `1-3`,
unique solution `-2`. -/
theorem C1_witness : solveR "2x+3=x+1" = .ok (.UniqueSolution (-2)) := by
  have h :=
    (C1_classification "2x+3=x+1" "2x+3".data "x+1".data 2 3 1 1 rfl rfl
      rfl).2.2 (by decide)
  rwa [show Int.fdiv (1 - 3) (2 - 1) = -2 from rfl] at h

/-- Floor remainder bounds for a negative divisor: `b < a.fmod b ≤ 0`. -/
theorem fmod_neg_bounds (a b : Int) (hb : b < 0) : b < a.fmod b ∧ a.fmod b ≤ 0 := by
  obtain ⟨n, rfl⟩ : ∃ n, b = Int.negSucc n := by
    cases b with
    | ofNat m =>
      rw [Int.ofNat_eq_coe] at hb
      exact absurd hb (by omega)
    | negSucc n => exact ⟨n, rfl⟩
  cases a with
  | ofNat m =>
    cases m with
    | zero =>
      show Int.negSucc n < 0 ∧ (0 : Int) ≤ 0
      rw [Int.negSucc_eq]
      omega
    | succ m =>
      show Int.negSucc n < Int.subNatNat (m % (n + 1)) n ∧
        Int.subNatNat (m % (n + 1)) n ≤ 0
      rw [Int.subNatNat_eq_coe, Int.negSucc_eq]
      have hm : m % (n + 1) < n + 1 := Nat.mod_lt _ (Nat.succ_pos n)
      omega
  | negSucc m =>
    show Int.negSucc n < -(((m + 1) % (n + 1) : Nat) : Int) ∧
      -(((m + 1) % (n + 1) : Nat) : Int) ≤ 0
    rw [Int.negSucc_eq]
    have hm : (m + 1) % (n + 1) < n + 1 := Nat.mod_lt _ (Nat.succ_pos n)
    omega

/-- Floor division bracket, all divisor signs: writing `q = m.fdiv k`,
for `k > 0` one has `k*q ≤ m < k*q + |k|`, and for `k < 0` the bracket
flips to `m ≤ k*q < m + |k|`. -/
theorem fdiv_bracket (m k : Int) :
    (0 < k → k * m.fdiv k ≤ m ∧ m < k * m.fdiv k + |k|) ∧
    (k < 0 → m ≤ k * m.fdiv k ∧ k * m.fdiv k < m + |k|) := by
  constructor
  · intro hk
    rw [Int.fdiv_eq_ediv m (Int.le_of_lt hk), abs_of_pos hk]
    have h1 := Int.emod_nonneg m (ne_of_gt hk)
    have h2 := Int.emod_lt_of_pos m hk
    have h3 := Int.ediv_add_emod m k
    omega
  · intro hk
    have h1 := Int.fmod_add_fdiv m k
    have h2 := fmod_neg_bounds m k hk
    rw [abs_of_neg hk]
    omega

/-- C2 (amended): on an equation that reduces to `k*x = m` with
`k = leftCoeff - rightCoeff ≠ 0` and `m = rightConst - leftConst`, the
returned `x = m.fdiv k` satisfies `k*x = m` exactly when `k` divides `m`;
the floor bracket `k*x ≤ m < k*x + |k|` holds whenever `k > 0`, while
for `k < 0` it flips to `m ≤ k*x < m + |k|`. -/
theorem C2_floor_division (eq : String) (l r : List Char) (lxc lk rxc rk : Int)
    (hsp : splitEq eq.data = [l, r])
    (hl : parse_expression ⟨l⟩ = .ok (lxc, lk))
    (hr : parse_expression ⟨r⟩ = .ok (rxc, rk))
    (hk : lxc - rxc ≠ 0) :
    solveR eq = .ok (.UniqueSolution ((rk - lk).fdiv (lxc - rxc))) ∧
    ((lxc - rxc) ∣ (rk - lk) →
      (lxc - rxc) * ((rk - lk).fdiv (lxc - rxc)) = rk - lk) ∧
    (0 < lxc - rxc →
      (lxc - rxc) * ((rk - lk).fdiv (lxc - rxc)) ≤ rk - lk ∧
      rk - lk < (lxc - rxc) * ((rk - lk).fdiv (lxc - rxc)) + |lxc - rxc|) ∧
    (lxc - rxc < 0 →
      rk - lk ≤ (lxc - rxc) * ((rk - lk).fdiv (lxc - rxc)) ∧
      (lxc - rxc) * ((rk - lk).fdiv (lxc - rxc)) < rk - lk + |lxc - rxc|) := by
  refine ⟨?_, ?_, (fdiv_bracket (rk - lk) (lxc - rxc)).1,
    (fdiv_bracket (rk - lk) (lxc - rxc)).2⟩
  · rw [solveR_eq eq l r lxc lk rxc rk hsp hl hr]
    simp [hk]
  · intro hdvd
    rw [Int.fdiv_eq_ediv_of_dvd hdvd]
    exact Int.mul_ediv_cancel' hdvd

/-- C2 counterexample: `"x=3x+1"` reduces to `k = -2`, `m = 1`; the code
returns `x = -1` (floor division), and the claimed bracket
`k*x ≤ m` fails because `(-2)*(-1) = 2 > 1`. -/
theorem C2_counterexample :
    parse_expression "x" = .ok (1, 0) ∧
    parse_expression "3x+1" = .ok (3, 1) ∧
    solveR "x=3x+1" = .ok (.UniqueSolution (-1)) ∧
    ¬ ((1 - 3 : Int) * (-1) ≤ 1 - 0) :=
  ⟨rfl, rfl, rfl, by decide⟩

/-- C2 witness at `"2x=7"`: `k = 2`, `m = 7`, not divisible, and the
floor bracket holds. -/
theorem C2_witness :
    solveR "2x=7" = .ok (.UniqueSolution ((7 - 0 : Int).fdiv (2 - 0))) ∧
    (2 - 0 : Int) * ((7 - 0 : Int).fdiv (2 - 0)) ≤ 7 - 0 ∧
    (7 - 0 : Int) < (2 - 0) * ((7 - 0 : Int).fdiv (2 - 0)) + |(2 - 0 : Int)| := by
  have h := C2_floor_division "2x=7" "2x".data "7".data 2 0 0 7 rfl rfl rfl
    (by decide)
  exact ⟨h.1, (h.2.2.1 (by decide)).1, (h.2.2.1 (by decide)).2⟩

/-- C4 (amended): two operators in a row are not rejected.  When the
scanner meets an operator while the current term body is still empty,
the empty body contributes nothing, so the earlier operator is simply
discarded and scanning continues with the new one. -/
theorem C4_consecutive_operators (c : Char) (rest : List Char) (s xc k : Int)
    (hc : c = '+' ∨ c = '-') :
    scan (c :: rest) s [] xc k =
      scan rest (if c = '+' then 1 else -1) [] xc k := by
  rcases hc with rfl | rfl <;> simp [scan, processTerm]

/-- C4 witness: a discarded `'+'` before the term `5`. -/
theorem C4_witness :
    scan ('+' :: ['5']) 1 [] 0 0 = scan ['5'] 1 [] 0 0 :=
  C4_consecutive_operators '+' ['5'] 1 0 0 (Or.inl rfl)

/-- C4 counterexample: `"x++5=0"` is not surfaced as a failure; it is
silently solved exactly like `"x+5=0"`. -/
theorem C4_counterexample :
    solve_equation "x++5=0" = .ok "x=-5" ∧
    solve_equation "x++5=0" = solve_equation "x+5=0" :=
  ⟨rfl, rfl⟩

/-- C7 (amended): for a term body containing the variable character, the
magnitude is the integer written by the body with every `'x'` removed,
so digits after the variable concatenate with the digits before it
(Python `term.replace('x','')` followed by `int`). -/
theorem C7_magnitude (ds es : List Char) (s xc k : Int)
    (hds : ∀ c ∈ ds, c.isDigit) (hes : ∀ c ∈ es, c.isDigit)
    (hne : ds ++ es ≠ []) :
    ∃ v, pyInt (ds ++ es) = some v ∧
      processTerm s (ds ++ 'x' :: es) xc k = .ok (xc + s * v, k) := by
  have hdig : ∀ c ∈ ds ++ es, c.isDigit := by
    intro c hcm
    rcases List.mem_append.mp hcm with hcm | hcm
    · exact hds c hcm
    · exact hes c hcm
  have hnotx : ∀ c ∈ ds ++ es, c ≠ 'x' := by
    intro c hcm he
    have := hdig c hcm
    rw [he] at this
    simp [Char.isDigit] at this
  have h1 : ds.filter (fun c => c ≠ 'x') = ds :=
    List.filter_eq_self.mpr
      (fun c hcm => by simpa using hnotx c (List.mem_append.mpr (Or.inl hcm)))
  have h2 : es.filter (fun c => c ≠ 'x') = es :=
    List.filter_eq_self.mpr
      (fun c hcm => by simpa using hnotx c (List.mem_append.mpr (Or.inr hcm)))
  have hfil : (ds ++ 'x' :: es).filter (fun c => c ≠ 'x') = ds ++ es := by
    rw [List.filter_append, h1]
    simp [List.filter_cons, h2]
    intro a ham
    simpa using hnotx a (List.mem_append.mpr (Or.inr ham))
  have hall : (ds ++ es).all Char.isDigit := List.all_eq_true.mpr
    (fun c hcm => hdig c hcm)
  have hpy : pyInt (ds ++ es) =
      some (Int.ofNat ((ds ++ es).foldl
        (fun acc c => 10 * acc + (c.toNat - '0'.toNat)) 0)) :=
    pyInt_digits (ds ++ es) hne hall
  refine ⟨_, hpy, ?_⟩
  have hx : 'x' ∈ ds ++ 'x' :: es := List.mem_append.mpr (Or.inr (by simp))
  have hne1 : ¬(ds ++ es = [] ∨ ds ++ es = ['+']) := by
    rintro (h | h)
    · exact hne h
    · have : '+' ∈ ds ++ es := by simp [h]
      have := hdig _ this
      simp [Char.isDigit] at this
  have hne2 : ¬(ds ++ es = ['-']) := by
    intro h
    have : '-' ∈ ds ++ es := by simp [h]
    have := hdig _ this
    simp [Char.isDigit] at this
  unfold processTerm
  rw [if_pos hx]
  simp only [hfil]
  rw [if_neg hne1, if_neg hne2, hpy]

/-- C7 witness: the body `2x3` has magnitude 23. -/
theorem C7_witness :
    pyInt ['2', '3'] = some 23 ∧
    processTerm 1 ['2', 'x', '3'] 0 0 = .ok (0 + 1 * 23, 0) := by
  obtain ⟨v, hv, hp⟩ := C7_magnitude ['2'] ['3'] 1 0 0 (by decide) (by decide)
    (by decide)
  simp only [List.cons_append, List.nil_append] at hv hp
  have h23 : pyInt ['2', '3'] = some 23 := rfl
  rw [hv] at h23
  obtain rfl : v = 23 := Option.some.inj h23
  exact ⟨hv, hp⟩

/-- C7 counterexample: the claim predicts magnitude 2 for the body
`2x3`, so `parse("2x3")` would be `(2, 0)`; the code yields `(23, 0)`. -/
theorem C7_counterexample :
    parse_expression "2x3" = .ok (23, 0) ∧
    parse_expression "2x3" ≠ .ok (2, 0) := by
  refine ⟨rfl, fun h => ?_⟩
  have h1 : parse_expression "2x3" = .ok (23, 0) := rfl
  rw [h1] at h
  simp at h

/-- C9 (amended): parsing removes only the ASCII space character before
scanning, so `parse(s)` equals `parse` of `s` with every `' '` removed;
other whitespace characters are not stripped. -/
theorem C9_space_removal (s : String) :
    parse_expression s = parse_expression ⟨s.data.filter (fun c => c ≠ ' ')⟩ := by
  unfold parse_expression
  rw [show (String.mk (s.data.filter (fun c => c ≠ ' '))).data =
    s.data.filter (fun c => c ≠ ' ') from rfl]
  rw [List.filter_filter]
  simp

/-- C9 counterexample: the tab character is whitespace but is not
stripped, so the coefficient text of the term `"\tx"` is the
whitespace-only string `"\t"`, on which `int` raises; the all-whitespace
claim would instead demand the result of `parse("x")`. -/
theorem C9_counterexample :
    Char.isWhitespace '\t' = true ∧
    parse_expression "\tx" = .error (.badInt "\t") ∧
    parse_expression "x" = .ok (1, 0) ∧
    parse_expression "\tx" ≠ parse_expression "x" := by
  refine ⟨rfl, rfl, rfl, fun h => ?_⟩
  have h1 : parse_expression "\tx" = .error (.badInt "\t") := rfl
  have h2 : parse_expression "x" = .ok (1, 0) := rfl
  rw [h1, h2] at h
  simp at h

/-- Processing a term only ever adds to the accumulators: the result at
accumulators `(xc, k)` is the result at `(0, 0)` shifted by `(xc, k)`. -/
theorem processTerm_shift (s : Int) (term : List Char) (xc k a b : Int)
    (h : processTerm s term 0 0 = .ok (a, b)) :
    processTerm s term xc k = .ok (xc + a, k + b) := by
  unfold processTerm at h ⊢
  by_cases hx : 'x' ∈ term
  · rw [if_pos hx] at h ⊢
    by_cases h1 : term.filter (fun c => c ≠ 'x') = [] ∨
        term.filter (fun c => c ≠ 'x') = ['+']
    · rw [if_pos h1] at h ⊢
      simp only [Except.ok.injEq, Prod.mk.injEq] at h ⊢
      omega
    · rw [if_neg h1] at h ⊢
      by_cases h2 : term.filter (fun c => c ≠ 'x') = ['-']
      · rw [if_pos h2] at h ⊢
        simp only [Except.ok.injEq, Prod.mk.injEq] at h ⊢
        omega
      · rw [if_neg h2] at h ⊢
        rcases hp : pyInt (term.filter (fun c => c ≠ 'x')) with _ | v
        · rw [hp] at h
          simp at h
        · rw [hp] at h
          simp only [Except.ok.injEq, Prod.mk.injEq] at h ⊢
          omega
  · rw [if_neg hx] at h ⊢
    by_cases h1 : term = []
    · rw [if_pos h1] at h ⊢
      simp only [Except.ok.injEq, Prod.mk.injEq] at h ⊢
      omega
    · rw [if_neg h1] at h ⊢
      rcases hp : pyInt term with _ | v
      · rw [hp] at h
        simp at h
      · rw [hp] at h
        simp only [Except.ok.injEq, Prod.mk.injEq] at h ⊢
        omega

/-- Characters that are not operators are moved from the input into the
current term accumulator, in order. -/
theorem scan_append (body rest : List Char) (s : Int) (term : List Char)
    (xc k : Int) (hb : ∀ c ∈ body, ¬(c = '+' ∨ c = '-')) :
    scan (body ++ rest) s term xc k = scan rest s (term ++ body) xc k := by
  induction body generalizing term with
  | nil => simp
  | cons c body ih =>
    have hc : ¬(c = '+' ∨ c = '-') := hb c (by simp)
    simp only [List.cons_append, scan, if_neg hc, List.append_eq]
    rw [ih (term ++ [c]) (fun d hd => hb d (by simp [hd]))]
    rw [List.append_assoc]
    rfl

/-- A valid term processes, from zero accumulators, to its contribution. -/
theorem contrib_spec (t : Term) (hv : validTerm t) :
    processTerm (signVal t) t.body 0 0 = .ok (contrib t) := by
  have h := hv.2.2
  unfold isOkB at h
  unfold contrib
  rcases hp : processTerm (signVal t) t.body 0 0 with e | p
  · rw [hp] at h
    simp at h
  · rfl

/-- Scanning the rendering of a list of valid terms accumulates the sum
of their contributions on top of whatever the pending term produces. -/
theorem scan_renderTerms (ts : List Term) (s : Int) (term : List Char)
    (xc k a b : Int) (hv : ∀ t ∈ ts, validTerm t)
    (h : processTerm s term xc k = .ok (a, b)) :
    scan (renderTerms ts) s term xc k =
      .ok (a + ((ts.map (fun t => (contrib t).1)).sum),
        b + ((ts.map (fun t => (contrib t).2)).sum)) := by
  induction ts generalizing s term xc k a b with
  | nil =>
    simp only [renderTerms, List.foldr_nil, scan, List.map_nil, List.sum_nil,
      add_zero]
    exact h
  | cons t ts ih =>
    have hvt := hv t (by simp)
    have hvts : ∀ u ∈ ts, validTerm u := fun u hu => hv u (by simp [hu])
    have hsc : signChar t = '+' ∨ signChar t = '-' := by
      cases ht : t.sign <;> simp [signChar, ht]
    have hsv : (if signChar t = '+' then (1 : Int) else -1) = signVal t := by
      cases ht : t.sign <;> simp [signChar, signVal, ht]
    show scan (signChar t :: (t.body ++ renderTerms ts)) s term xc k = _
    simp only [scan, if_pos hsc, h, hsv]
    rw [scan_append t.body (renderTerms ts) (signVal t) [] a b
      (fun c hcm => by
        have := hvt.2.1 c hcm
        tauto)]
    simp only [List.nil_append]
    have hcon : processTerm (signVal t) t.body 0 0 =
        .ok ((contrib t).1, (contrib t).2) := by
      rw [Prod.mk.eta]
      exact contrib_spec t hvt
    have hshift := processTerm_shift (signVal t) t.body a b (contrib t).1
      (contrib t).2 hcon
    rw [ih (signVal t) t.body a b (a + (contrib t).1) (b + (contrib t).2)
      hvts hshift]
    simp only [List.map_cons, List.sum_cons, Except.ok.injEq, Prod.mk.injEq]
    omega

/-- Unfolding of `parse_expression` once the space-free character list
is known to be non-empty. -/
theorem parse_expression_eq (cs : List Char) (c : Char) (cs' : List Char)
    (hf : cs.filter (fun c => c ≠ ' ') = c :: cs') :
    parse_expression ⟨cs⟩ =
      (if c = '+' ∨ c = '-' then
        scan cs' (if c = '+' then 1 else -1) [] 0 0
      else scan (c :: cs') 1 [] 0 0) := by
  unfold parse_expression
  rw [show (String.mk cs).data = cs from rfl, hf]

/-- The rendering of valid terms contains no space character. -/
theorem renderTerms_no_space (ts : List Term) (hv : ∀ t ∈ ts, validTerm t) :
    ∀ c ∈ renderTerms ts, c ≠ ' ' := by
  induction ts with
  | nil => simp [renderTerms]
  | cons t ts ih =>
    intro c hcm
    have hvt := hv t (by simp)
    rcases hcm with _ | hcm
    · cases ht : t.sign <;> simp [signChar, ht]
    · rename_i hcm0
      rcases List.mem_append.mp hcm0 with hcm1 | hcm1
      · exact (hvt.2.1 c hcm1).2.2
      · exact ih (fun u hu => hv u (by simp [hu])) c hcm1

/-- Parsing the rendering of a non-empty list of valid terms yields the
sums of the terms' coefficient and constant contributions. -/
theorem parse_renderTerms (ts : List Term) (hne : ts ≠ [])
    (hv : ∀ t ∈ ts, validTerm t) :
    parse_expression ⟨renderTerms ts⟩ =
      .ok ((ts.map (fun t => (contrib t).1)).sum,
        (ts.map (fun t => (contrib t).2)).sum) := by
  cases ts with
  | nil => contradiction
  | cons t ts =>
    have hvt := hv t (by simp)
    have hvts : ∀ u ∈ ts, validTerm u := fun u hu => hv u (by simp [hu])
    have hsc : signChar t = '+' ∨ signChar t = '-' := by
      cases ht : t.sign <;> simp [signChar, ht]
    have hsv : (if signChar t = '+' then (1 : Int) else -1) = signVal t := by
      cases ht : t.sign <;> simp [signChar, signVal, ht]
    have hfil : (renderTerms (t :: ts)).filter (fun c => c ≠ ' ') =
        signChar t :: (t.body ++ renderTerms ts) :=
      List.filter_eq_self.mpr
        (fun c hcm => by simpa using renderTerms_no_space (t :: ts) hv c hcm)
    rw [parse_expression_eq (renderTerms (t :: ts)) (signChar t)
      (t.body ++ renderTerms ts) hfil]
    rw [if_pos hsc, hsv]
    rw [scan_append t.body (renderTerms ts) (signVal t) [] 0 0
      (fun c hcm => by
        have := hvt.2.1 c hcm
        tauto)]
    simp only [List.nil_append]
    have hcon : processTerm (signVal t) t.body 0 0 =
        .ok ((contrib t).1, (contrib t).2) := by
      rw [Prod.mk.eta]
      exact contrib_spec t hvt
    rw [scan_renderTerms ts (signVal t) t.body 0 0 (contrib t).1 (contrib t).2
      hvts hcon]
    simp only [List.map_cons, List.sum_cons]

/-- C6: parsing is invariant under reordering of a side's signed terms:
any permutation of a list of valid terms renders to a side string with
the identical parse result. -/
theorem C6_reorder (ts1 ts2 : List Term) (hperm : ts1.Perm ts2)
    (hv : ∀ t ∈ ts1, validTerm t) :
    parse_expression ⟨renderTerms ts1⟩ = parse_expression ⟨renderTerms ts2⟩ := by
  rcases eq_or_ne ts1 [] with rfl | hne
  · rw [hperm.symm.eq_nil]
  · have hne2 : ts2 ≠ [] := by
      intro h
      subst h
      exact hne hperm.eq_nil
    have hv2 : ∀ t ∈ ts2, validTerm t := fun t ht => hv t (hperm.mem_iff.mpr ht)
    rw [parse_renderTerms ts1 hne hv, parse_renderTerms ts2 hne2 hv2,
      List.Perm.sum_eq (hperm.map (fun t => (contrib t).1)),
      List.Perm.sum_eq (hperm.map (fun t => (contrib t).2))]

/-- C6 witness: the terms of `x+5-3+x` permuted to those of `x+x+5-3`
parse identically. -/
theorem C6_witness :
    parse_expression "x+5-3+x" = parse_expression "x+x+5-3" := by
  have h := C6_reorder
    [⟨true, ['x']⟩, ⟨true, ['5']⟩, ⟨false, ['3']⟩, ⟨true, ['x']⟩]
    [⟨true, ['x']⟩, ⟨true, ['x']⟩, ⟨true, ['5']⟩, ⟨false, ['3']⟩]
    (by decide) (by decide)
  calc parse_expression "x+5-3+x"
      = parse_expression
        ⟨renderTerms [⟨true, ['x']⟩, ⟨true, ['5']⟩, ⟨false, ['3']⟩,
          ⟨true, ['x']⟩]⟩ := rfl
    _ = parse_expression
        ⟨renderTerms [⟨true, ['x']⟩, ⟨true, ['x']⟩, ⟨true, ['5']⟩,
          ⟨false, ['3']⟩]⟩ := h
    _ = parse_expression "x+x+5-3" := rfl

/-- A term body made of digits and variable characters processes
successfully. -/
theorem processTerm_ok (s : Int) (term : List Char) (xc k : Int)
    (h : ∀ c ∈ term, c.isDigit ∨ c = 'x') :
    ∃ p, processTerm s term xc k = .ok p := by
  unfold processTerm
  by_cases hx : 'x' ∈ term
  · rw [if_pos hx]
    by_cases h1 : term.filter (fun c => c ≠ 'x') = [] ∨
        term.filter (fun c => c ≠ 'x') = ['+']
    · rw [if_pos h1]
      exact ⟨_, rfl⟩
    · rw [if_neg h1]
      by_cases h2 : term.filter (fun c => c ≠ 'x') = ['-']
      · rw [if_pos h2]
        exact ⟨_, rfl⟩
      · rw [if_neg h2]
        have hne : term.filter (fun c => c ≠ 'x') ≠ [] := by tauto
        have hdig : (term.filter (fun c => c ≠ 'x')).all Char.isDigit := by
          rw [List.all_eq_true]
          intro c hcm
          have hm := List.mem_filter.mp hcm
          rcases h c hm.1 with hd | hd
          · exact hd
          · exact absurd hd (by simpa using hm.2)
        rw [pyInt_digits _ hne hdig]
        exact ⟨_, rfl⟩
  · rw [if_neg hx]
    by_cases h1 : term = []
    · rw [if_pos h1]
      exact ⟨_, rfl⟩
    · rw [if_neg h1]
      have hdig : term.all Char.isDigit := by
        rw [List.all_eq_true]
        intro c hcm
        rcases h c hcm with hd | hd
        · exact hd
        · exact absurd (hd ▸ hcm) hx
      rw [pyInt_digits _ h1 hdig]
      exact ⟨_, rfl⟩

/-- The scan succeeds on any input made of digits, variable characters
and operators, whatever the pending term and accumulators. -/
theorem scan_ok (cs : List Char) (s : Int) (term : List Char) (xc k : Int)
    (hcs : ∀ c ∈ cs, c.isDigit ∨ c = 'x' ∨ c = '+' ∨ c = '-')
    (hterm : ∀ c ∈ term, c.isDigit ∨ c = 'x') :
    ∃ p, scan cs s term xc k = .ok p := by
  induction cs generalizing s term xc k with
  | nil => exact processTerm_ok s term xc k hterm
  | cons c rest ih =>
    by_cases hc : c = '+' ∨ c = '-'
    · obtain ⟨⟨a, b⟩, hp⟩ := processTerm_ok s term xc k hterm
      obtain ⟨q, hq⟩ := ih (if c = '+' then 1 else -1) [] a b
        (fun d hd => hcs d (by simp [hd])) (by simp)
      refine ⟨q, ?_⟩
      simp only [scan, if_pos hc, hp]
      exact hq
    · simp only [scan, if_neg hc]
      apply ih
      · intro d hd
        exact hcs d (by simp [hd])
      · intro d hd
        rcases List.mem_append.mp hd with hd | hd
        · exact hterm d hd
        · simp only [List.mem_singleton] at hd
          subst hd
          rcases hcs d (by simp) with h | h | h | h
          · exact Or.inl h
          · exact Or.inr h
          · exact absurd (Or.inl h) hc
          · exact absurd (Or.inr h) hc

/-- A side satisfying the spec's input constraints parses successfully. -/
theorem parse_ok (cs : List Char) (h : sideOK cs) :
    ∃ p, parse_expression ⟨cs⟩ = .ok p := by
  obtain ⟨hne, hch⟩ := h
  rcases hf : cs.filter (fun c => c ≠ ' ') with _ | ⟨c, cs'⟩
  · exact absurd hf hne
  · rw [parse_expression_eq cs c cs' hf]
    have hmem : ∀ d ∈ c :: cs', d.isDigit ∨ d = 'x' ∨ d = '+' ∨ d = '-' := by
      intro d hd
      rw [← hf] at hd
      have hd2 := List.mem_filter.mp hd
      have hd3 := hch d hd2.1
      have hd4 : d ≠ ' ' := by simpa using hd2.2
      tauto
    by_cases hc : c = '+' ∨ c = '-'
    · rw [if_pos hc]
      exact scan_ok cs' (if c = '+' then 1 else -1) [] 0 0
        (fun d hd => hmem d (by simp [hd])) (by simp)
    · rw [if_neg hc]
      exact scan_ok (c :: cs') 1 [] 0 0 hmem (by simp)

/-- C8: on any well-formed equation (exactly one `=`, both sides within
the parser's input constraints) the solver is total: it returns `.ok` of
exactly one of the three outcome kinds.  Termination itself is by
construction: `scan` recurses structurally, consuming one character of
its input per step. -/
theorem C8_total (eq : String) (l r : List Char)
    (hsp : splitEq eq.data = [l, r]) (hl : sideOK l) (hr : sideOK r) :
    ∃ res, solveR eq = .ok res ∧
      (res = .InfiniteSolutions ∨ res = .NoSolution ∨
        ∃ x, res = .UniqueSolution x) := by
  obtain ⟨⟨lxc, lk⟩, hpl⟩ := parse_ok l hl
  obtain ⟨⟨rxc, rk⟩, hpr⟩ := parse_ok r hr
  have he := solveR_eq eq l r lxc lk rxc rk hsp hpl hpr
  by_cases h1 : lxc - rxc = 0
  · by_cases h2 : rk - lk = 0
    · exact ⟨.InfiniteSolutions, by rw [he]; simp [h1, h2], Or.inl rfl⟩
    · exact ⟨.NoSolution, by rw [he]; simp [h1, h2], Or.inr (Or.inl rfl)⟩
  · exact ⟨.UniqueSolution ((rk - lk).fdiv (lxc - rxc)),
      by rw [he]; simp [h1], Or.inr (Or.inr ⟨_, rfl⟩)⟩

/-- C8 witness at `"2x=8"`. -/
theorem C8_witness :
    ∃ res, solveR "2x=8" = .ok res ∧
      (res = .InfiniteSolutions ∨ res = .NoSolution ∨
        ∃ x, res = .UniqueSolution x) :=
  C8_total "2x=8" "2x".data "8".data rfl (by decide) (by decide)

